import Mathlib

/-!
Verification of the C-string module `c_str.rs`.

The module manages null-terminated byte buffers: `CStrBuf` (owning,
unsized-length), `CString` (owning, length-cached), `BorrowedCString`
(borrowed, length-cached), a conversion capability `ToCStr`, a byte
iterator `CChars` and the multi-string walker `from_c_multistring`.

Shallow embedding conventions:
* C memory is a flat byte store `CMem` (a list of byte values); pointers
  are natural numbers where `0` is the null pointer and address `a ≥ 1`
  refers to cell `a - 1` of the store.  Reads outside any allocation
  (undefined behaviour in C) yield `0` in the model.
* `libc::malloc` extends the store at the end and therefore never
  returns null, matching `libc_malloc` in the source which aborts the
  process on exhaustion.
* A Rust panic (a failed `assert!`) is modelled by `Option.none`.
* Destructor closures are identified by a numeric tag; invoking a
  destructor is recorded as a `DtorEvent` (tag, address) in an event
  list, so "the release closure runs exactly once with the original
  address" becomes a statement about the event lists an operation emits.
-/

abbrev Byte := Nat

abbrev CMem := List Byte

/-- NUL from c_str.rs: the terminator byte. -/
def NUL : Byte := 0

/-- The suffix of the store visible from address `a` on (null sees nothing). -/
def tailFrom (mem : CMem) (a : Nat) : List Byte :=
  if a = 0 then [] else mem.drop (a - 1)

/-- Dereference address `a` (the C expression `*ptr`). -/
def getByte (mem : CMem) (a : Nat) : Byte :=
  (tailFrom mem a).headD 0

/-- The byte slice of length `n` starting at address `a`. -/
def memRead (mem : CMem) (a n : Nat) : List Byte :=
  (tailFrom mem a).take n

/-- Store byte `x` at address `a`. -/
def setByte (mem : CMem) (a : Nat) (x : Byte) : CMem :=
  mem.set (a - 1) x

/-- Store the bytes `w` consecutively starting at address `a`
(the effect of `ptr::copy_nonoverlapping_memory`). -/
def memWrite : CMem → Nat → List Byte → CMem
  | mem, _, [] => mem
  | mem, a, x :: w => memWrite (setByte mem a x) (a + 1) w

/-- The null-terminated content at address `a`: the bytes up to (excluding)
the first terminator. -/
def cstrContent (mem : CMem) (a : Nat) : List Byte :=
  (tailFrom mem a).takeWhile (fun b => b != NUL)

/-- libc `strlen`: scan from `a` for the terminator. -/
def strlen (mem : CMem) (a : Nat) : Nat :=
  (cstrContent mem a).length

/-- The loop of libc `strcmp` on two byte tails: step while the current
bytes are equal and nonzero, then return the difference of the current
bytes. -/
def strcmpList : List Byte → List Byte → Int
  | [], ys => (0 : Int) - (ys.headD 0 : Byte)
  | x :: xs, ys =>
    if x = ys.headD 0 then
      (if x = NUL then 0 else strcmpList xs ys.tail)
    else (x : Int) - (ys.headD 0 : Byte)

/-- libc `strcmp` applied to two addresses of the store. -/
def strcmp (mem : CMem) (p1 p2 : Nat) : Int :=
  strcmpList (tailFrom mem p1) (tailFrom mem p2)

/-- libc_malloc from c_str.rs: allocate `size` fresh cells at the end of the
store and return the new store and the address of the first cell.  The
result address is `mem.length + 1 ≠ 0`: the source aborts on a null result,
so the model's allocator never produces one. -/
def libc_malloc (mem : CMem) (size : Nat) : CMem × Nat :=
  (mem ++ List.replicate size 0, mem.length + 1)

/-- The tag identifying the `libc_free` destructor passed by `new_libc`. -/
def libc_free : Nat := 0

/-- CStrBuf from c_str.rs: raw pointer plus optional destructor closure
(closures are identified by their tag). -/
structure CStrBuf where
  ptr : Nat
  dtor : Option Nat
deriving DecidableEq

/-- CString from c_str.rs: a `CStrBuf` plus the cached length. -/
structure CString where
  buf : CStrBuf
  len : Nat
deriving DecidableEq

/-- BorrowedCString from c_str.rs: borrowed pointer plus calculated length
(the lifetime marker has no computational content and is dropped). -/
structure BorrowedCString where
  ptr : Nat
  len : Nat
deriving DecidableEq

/-- CChars from c_str.rs: the byte iterator's cursor. -/
structure CChars where
  ptr : Nat
deriving DecidableEq

/-- A destructor invocation: (closure tag, address it was called with). -/
abbrev DtorEvent := Nat × Nat

/-- CStrBuf::new_internal. -/
def CStrBuf.new_internal (ptr : Nat) (maybe_dtor : Option Nat) : CStrBuf :=
  { ptr := ptr, dtor := maybe_dtor }

/-- CStrBuf::new_unowned: panics (`none`) on a null pointer, no destructor. -/
def CStrBuf.new_unowned (ptr : Nat) : Option CStrBuf :=
  if ptr = 0 then none else some (CStrBuf.new_internal ptr none)

/-- CStrBuf::new_with_dtor: panics on a null pointer, installs `dtor`. -/
def CStrBuf.new_with_dtor (ptr : Nat) (dtor : Nat) : Option CStrBuf :=
  if ptr = 0 then none else some (CStrBuf.new_internal ptr (some dtor))

/-- CStrBuf::new_libc: `new_with_dtor` with the `libc_free` closure. -/
def CStrBuf.new_libc (ptr : Nat) : Option CStrBuf :=
  CStrBuf.new_with_dtor ptr libc_free

/-- Drop for CStrBuf: `self.dtor.take()` and invoke it on `self.ptr` if
present.  Returns the list of destructor invocations this emits. -/
def CStrBuf.dropRun (b : CStrBuf) : List DtorEvent :=
  match b.dtor with
  | none => []
  | some f => [(f, b.ptr)]

/-- CStrBuf::into_c_str: `self.dtor.take()` moves the destructor into the
new `CString`; the consumed `self` (now with no destructor) is dropped.
Returns the (unchanged) store, the promoted string, and the destructor
events emitted while consuming `self`. -/
def CStrBuf.into_c_str (mem : CMem) (b : CStrBuf) : CMem × CString × List DtorEvent :=
  let taken := b.dtor
  let residual : CStrBuf := { ptr := b.ptr, dtor := none }
  (mem,
   { buf := { ptr := b.ptr, dtor := taken }, len := strlen mem b.ptr },
   CStrBuf.dropRun residual)

/-- CStrBuf::unwrap: clear the destructor, hand out the raw pointer; the
consumed `self` is then dropped.  Returns the pointer and the destructor
events emitted. -/
def CStrBuf.unwrap (b : CStrBuf) : Nat × List DtorEvent :=
  let residual : CStrBuf := { ptr := b.ptr, dtor := none }
  (b.ptr, CStrBuf.dropRun residual)

/-- CStrBuf::iter. -/
def CStrBuf.iter (b : CStrBuf) : CChars :=
  { ptr := b.ptr }

/-- CString::new_internal: asserts that the byte at offset `len` is the
terminator. -/
def CString.new_internal (mem : CMem) (ptr len : Nat) (maybe_dtor : Option Nat) :
    Option CString :=
  if getByte mem (ptr + len) = NUL then
    some { buf := CStrBuf.new_internal ptr maybe_dtor, len := len }
  else none

/-- CString::new_unowned: panics on a null pointer, then `new_internal`. -/
def CString.new_unowned (mem : CMem) (ptr len : Nat) : Option CString :=
  if ptr = 0 then none else CString.new_internal mem ptr len none

/-- CString::new_with_dtor: panics on a null pointer, then `new_internal`. -/
def CString.new_with_dtor (mem : CMem) (ptr len d : Nat) : Option CString :=
  if ptr = 0 then none else CString.new_internal mem ptr len (some d)

/-- CString::new_libc: `new_with_dtor` with the `libc_free` closure. -/
def CString.new_libc (mem : CMem) (ptr len : Nat) : Option CString :=
  CString.new_with_dtor mem ptr len libc_free

/-- CString::as_bytes: the slice of `len + 1` bytes at the pointer
(terminating NUL included). -/
def CString.as_bytes (mem : CMem) (s : CString) : List Byte :=
  memRead mem s.buf.ptr (s.len + 1)

/-- CString::as_bytes_no_nul: the slice of `len` bytes at the pointer. -/
def CString.as_bytes_no_nul (mem : CMem) (s : CString) : List Byte :=
  memRead mem s.buf.ptr s.len

/-- CString::borrow: same pointer and length, no ownership. -/
def CString.borrow (s : CString) : BorrowedCString :=
  { ptr := s.buf.ptr, len := s.len }

/-- Dropping a CString drops its `buf` field. -/
def CString.dropRun (s : CString) : List DtorEvent :=
  CStrBuf.dropRun s.buf

/-- CString::unwrap delegates to CStrBuf::unwrap. -/
def CString.unwrap (s : CString) : Nat × List DtorEvent :=
  CStrBuf.unwrap s.buf

/-- CString::iter delegates to CStrBuf::iter. -/
def CString.iter (s : CString) : CChars :=
  CStrBuf.iter s.buf

/-- BorrowedCString::wrap: panics on a null pointer, computes the length
with `strlen`. -/
def BorrowedCString.wrap (mem : CMem) (ptr : Nat) : Option BorrowedCString :=
  if ptr = 0 then none else some { ptr := ptr, len := strlen mem ptr }

/-- BorrowedCString::as_bytes. -/
def BorrowedCString.as_bytes (mem : CMem) (r : BorrowedCString) : List Byte :=
  memRead mem r.ptr (r.len + 1)

/-- BorrowedCString::as_bytes_no_nul. -/
def BorrowedCString.as_bytes_no_nul (mem : CMem) (r : BorrowedCString) : List Byte :=
  memRead mem r.ptr r.len

/-- CStrBuf::borrow_with_len delegates to BorrowedCString::wrap. -/
def CStrBuf.borrow_with_len (mem : CMem) (b : CStrBuf) : Option BorrowedCString :=
  BorrowedCString.wrap mem b.ptr

/-- The integer three-way comparison used by `res.cmp(&0)`. -/
def intCmp (a b : Int) : Ordering :=
  if a < b then Ordering.lt else if a = b then Ordering.eq else Ordering.gt

/-- PartialEq for CStrBuf: `strcmp(self.ptr, other.ptr) == 0`. -/
def CStrBuf.beq (mem : CMem) (b1 b2 : CStrBuf) : Bool :=
  strcmp mem b1.ptr b2.ptr == 0

/-- Ord for CStrBuf: `strcmp(self.ptr, other.ptr).cmp(&0)`. -/
def CStrBuf.cmp (mem : CMem) (b1 b2 : CStrBuf) : Ordering :=
  intCmp (strcmp mem b1.ptr b2.ptr) 0

/-- PartialOrd for CStrBuf: `Some(self.cmp(other))`. -/
def CStrBuf.partial_cmp (mem : CMem) (b1 b2 : CStrBuf) : Option Ordering :=
  some (CStrBuf.cmp mem b1 b2)

/-- Lexicographic three-way comparison of byte slices (Ord for `[u8]`). -/
def sliceCmp : List Byte → List Byte → Ordering
  | [], [] => Ordering.eq
  | [], _ :: _ => Ordering.lt
  | _ :: _, [] => Ordering.gt
  | x :: xs, y :: ys =>
    if x < y then Ordering.lt else if y < x then Ordering.gt else sliceCmp xs ys

/-- PartialEq for CString: `self.as_bytes().eq(other.as_bytes())`. -/
def CString.beq (mem : CMem) (s1 s2 : CString) : Bool :=
  CString.as_bytes mem s1 == CString.as_bytes mem s2

/-- Ord for CString: `self.as_bytes().cmp(other.as_bytes())`. -/
def CString.cmp (mem : CMem) (s1 s2 : CString) : Ordering :=
  sliceCmp (CString.as_bytes mem s1) (CString.as_bytes mem s2)

/-- PartialOrd for CString: `self.as_bytes().partial_cmp(other.as_bytes())`;
on `u8` elements the slice comparison is total, so this is `some` of the
lexicographic comparison. -/
def CString.partial_cmp (mem : CMem) (s1 s2 : CString) : Option Ordering :=
  some (CString.cmp mem s1 s2)

/-- buf_dup from c_str.rs: `malloc(len + 1)`, copy the `len` source bytes
(given as the list `v`), write the terminator at offset `len`, and wrap the
fresh pointer with `CStrBuf::new_libc`. -/
def buf_dup (mem : CMem) (v : List Byte) : Option (CMem × CStrBuf) :=
  let alloc := libc_malloc mem (v.length + 1)
  let mem1 := memWrite alloc.1 alloc.2 v
  let mem2 := setByte mem1 (alloc.2 + v.length) NUL
  (CStrBuf.new_libc alloc.2).map (fun b => (mem2, b))

/-- str_dup from c_str.rs: `buf_dup` plus the source length as cached
length. -/
def str_dup (mem : CMem) (v : List Byte) : Option (CMem × CString) :=
  (buf_dup mem v).map (fun r => (r.1, { buf := r.2, len := v.length }))

/-- ToCStr for `[u8]`, to_c_str_unchecked: `str_dup` on the slice's bytes. -/
def bytes_to_c_str_unchecked (mem : CMem) (v : List Byte) : Option (CMem × CString) :=
  str_dup mem v

/-- ToCStr for `[u8]`, to_c_str: asserts the slice has no interior NUL,
then the unchecked conversion. -/
def bytes_to_c_str (mem : CMem) (v : List Byte) : Option (CMem × CString) :=
  if v.contains NUL then none else bytes_to_c_str_unchecked mem v

/-- ToCStr for `str`: delegates to the byte-slice conversion on
`self.as_bytes()` (a text value is represented by its UTF-8 bytes `v`). -/
def str_to_c_str (mem : CMem) (v : List Byte) : Option (CMem × CString) :=
  bytes_to_c_str mem v

/-- ToCStr for `String`: delegates to the byte-slice conversion. -/
def string_to_c_str (mem : CMem) (v : List Byte) : Option (CMem × CString) :=
  bytes_to_c_str mem v

/-- ToCStr for CStrBuf, to_c_str_unchecked:
`str_dup(self.ptr, strlen(self.ptr))`. -/
def CStrBuf.to_c_str_unchecked (mem : CMem) (b : CStrBuf) : Option (CMem × CString) :=
  str_dup mem (memRead mem b.ptr (strlen mem b.ptr))

/-- ToCStr for CStrBuf, to_c_str: directly the unchecked conversion. -/
def CStrBuf.to_c_str (mem : CMem) (b : CStrBuf) : Option (CMem × CString) :=
  CStrBuf.to_c_str_unchecked mem b

/-- ToCStr for CString, to_c_str_unchecked:
`str_dup(self.buf.ptr, self.len)`. -/
def CString.to_c_str_unchecked (mem : CMem) (s : CString) : Option (CMem × CString) :=
  str_dup mem (memRead mem s.buf.ptr s.len)

/-- ToCStr for CString, to_c_str: directly the unchecked conversion. -/
def CString.to_c_str (mem : CMem) (s : CString) : Option (CMem × CString) :=
  CString.to_c_str_unchecked mem s

/-- ToCStr for BorrowedCString, to_c_str_unchecked:
`str_dup(self.ptr, self.len)`. -/
def BorrowedCString.to_c_str_unchecked (mem : CMem) (r : BorrowedCString) :
    Option (CMem × CString) :=
  str_dup mem (memRead mem r.ptr r.len)

/-- ToCStr for BorrowedCString, to_c_str: directly the unchecked
conversion. -/
def BorrowedCString.to_c_str (mem : CMem) (r : BorrowedCString) :
    Option (CMem × CString) :=
  BorrowedCString.to_c_str_unchecked mem r

/-- BUF_LEN from c_str.rs: the stack buffer threshold. -/
def BUF_LEN : Nat := 128

/-- Which code path `with_c_str_len` took. -/
inductive CPath
  | stack
  | heap
deriving DecidableEq

/-- The transient stack array in `with_c_str_len`: an uninitialized
128-byte array (its arbitrary initial content is the parameter `scratch`)
whose first `v.length` bytes are overwritten with `v`
(`slice::bytes::copy_memory`) and whose byte at `v.length` is then zeroed
(`buf[len] = 0`). -/
def stackCopy (scratch v : List Byte) : List Byte :=
  ((v ++ scratch.drop v.length).take BUF_LEN).set v.length NUL

/-- with_c_str_len from c_str.rs.  If `len < BUF_LEN` the closure is run on
a transient stack buffer (after the interior-NUL assertion when `checked`);
otherwise the slice is converted with `to_c_str` / `to_c_str_unchecked` and
the closure is run on the heap string.  The result records which path ran,
the byte region made visible to the closure, and the length passed to it. -/
def with_c_str_len (mem scratch : CMem) (v : List Byte) (checked : Bool) :
    Option (CPath × List Byte × Nat) :=
  let len := v.length
  if len < BUF_LEN then
    if checked = true ∧ v.contains NUL = true then none
    else some (CPath.stack, stackCopy scratch v, len)
  else
    match (if checked then bytes_to_c_str mem v else bytes_to_c_str_unchecked mem v) with
    | none => none
    | some r => some (CPath.heap, CString.as_bytes r.1 r.2, len)

/-- with_c_str from c_str.rs: `with_c_str_len` discarding the length. -/
def with_c_str (mem scratch : CMem) (v : List Byte) (checked : Bool) :
    Option (CPath × List Byte) :=
  (with_c_str_len mem scratch v checked).map (fun r => (r.1, r.2.1))

/-- Iterator for CChars, next(): read the byte at the cursor; stop (cursor
unchanged) on the terminator, otherwise yield the byte and advance by
one. -/
def CChars.next (mem : CMem) (it : CChars) : Option Byte × CChars :=
  let ch := getByte mem it.ptr
  if ch = NUL then (none, it)
  else (some ch, { ptr := it.ptr + 1 })

/-- Run the iterator until it is exhausted, collecting the yielded bytes
and the final cursor; `fuel` bounds the number of steps. -/
def CChars.drainFuel (mem : CMem) : Nat → CChars → Option (List Byte × CChars)
  | 0, _ => none
  | fuel + 1, it =>
    match CChars.next mem it with
    | (none, it2) => some ([], it2)
    | (some ch, it2) =>
      match CChars.drainFuel mem fuel it2 with
      | none => none
      | some r => some (ch :: r.1, r.2)

/-- Run the iterator to exhaustion; `mem.length + 1` steps always suffice
because the cursor advances by one cell per step. -/
def CChars.drain (mem : CMem) (it : CChars) : Option (List Byte × CChars) :=
  CChars.drainFuel mem (mem.length + 1) it

/-- The loop of from_c_multistring: while the count limit (if any) is not
reached and the current byte is not the terminator, wrap the cursor
(`CStrBuf::new_unowned(curr).into_c_str()`), invoke the callback on the
borrowed view (recorded in the returned list), and advance past the
segment and its terminator.  `fuel` bounds the number of iterations. -/
def from_c_multistring_go (mem : CMem) :
    Nat → Nat → Nat → Bool → Nat → Option (List BorrowedCString × Nat)
  | 0, _, _, _, _ => none
  | fuel + 1, curr, ctr, limited, limit =>
    if (limited = false ∨ ctr < limit) ∧ getByte mem curr ≠ NUL then
      match CStrBuf.new_unowned curr with
      | none => none
      | some b =>
        let cstr := (CStrBuf.into_c_str mem b).2.1
        match from_c_multistring_go mem fuel (curr + cstr.len + 1) (ctr + 1) limited limit with
        | none => none
        | some r => some (cstr.borrow :: r.1, r.2)
    else some ([], ctr)

/-- from_c_multistring from c_str.rs: parse consecutive null-terminated
segments starting at `buf`, invoking the callback per segment (the views
passed to it are returned in order) and returning the number of segments
visited.  The cursor advances at least one cell per iteration, so
`mem.length + 1` iterations always suffice. -/
def from_c_multistring (mem : CMem) (buf : Nat) (count : Option Nat) :
    Option (List BorrowedCString × Nat) :=
  let p := match count with
    | some limit => (true, limit)
    | none => (false, 0)
  from_c_multistring_go mem (mem.length + 1) buf 0 p.1 p.2

/-- A multistring: the given segments, each followed by a terminator, with
the final empty segment (a lone terminator) closing the sequence. -/
def multiEncode (ss : List (List Byte)) : List Byte :=
  (ss.map (fun s => s ++ [NUL])).flatten ++ [NUL]

/-- Number of segments `from_c_multistring` visits: all of them, or the
count limit if one is given and smaller. -/
def visitLimit : Option Nat → Nat → Nat
  | none, n => n
  | some k, n => min k n

/-- Well-formedness of a `CString` over a store: non-null pointer, the
cached extent lies inside the store, and the byte at offset `len` is the
terminator (the data-model invariant of an Owned String). -/
def CString.WF (mem : CMem) (s : CString) : Prop :=
  s.buf.ptr ≠ 0 ∧ s.buf.ptr + s.len ≤ mem.length ∧ getByte mem (s.buf.ptr + s.len) = NUL

instance (mem : CMem) (s : CString) : Decidable (CString.WF mem s) := by
  unfold CString.WF
  infer_instance

/-! Helper lemmas about the memory model. -/

lemma ne_nul_of_contains_eq_false {l : List Byte} (h : l.contains NUL = false) :
    ∀ x ∈ l, (x != NUL) = true := by
  intro x hx
  simp only [bne_iff_ne, ne_eq]
  intro he
  subst he
  have h' : l.elem NUL = false := h
  rw [List.elem_eq_true_of_mem hx] at h'
  cases h'

lemma tailFrom_append (pre rest : CMem) :
    tailFrom (pre ++ rest) (pre.length + 1) = rest := by
  rw [tailFrom, if_neg (by omega), Nat.add_sub_cancel, List.drop_left]

lemma getByte_append (pre rest : CMem) :
    getByte (pre ++ rest) (pre.length + 1) = rest.headD 0 := by
  rw [getByte, tailFrom_append]

lemma takeWhile_encode {s : List Byte} (rest : List Byte) (h : s.contains NUL = false) :
    (s ++ NUL :: rest).takeWhile (fun b => b != NUL) = s := by
  rw [List.takeWhile_append_of_pos (ne_nul_of_contains_eq_false h)]
  simp [List.takeWhile_cons]

lemma cstrContent_encode (pre s rest : CMem) (h : s.contains NUL = false) :
    cstrContent (pre ++ s ++ NUL :: rest) (pre.length + 1) = s := by
  rw [cstrContent, List.append_assoc, tailFrom_append, takeWhile_encode _ h]

lemma strlen_encode (pre s rest : CMem) (h : s.contains NUL = false) :
    strlen (pre ++ s ++ NUL :: rest) (pre.length + 1) = s.length := by
  rw [strlen, cstrContent_encode _ _ _ h]

lemma memRead_encode (pre s rest : CMem) :
    memRead (pre ++ s ++ rest) (pre.length + 1) s.length = s := by
  rw [memRead, List.append_assoc, tailFrom_append, List.take_left]

lemma memRead_encode_nul (pre s rest : CMem) :
    memRead (pre ++ s ++ NUL :: rest) (pre.length + 1) (s.length + 1) = s ++ [NUL] := by
  rw [memRead, List.append_assoc, tailFrom_append, List.take_append, List.take_succ_cons,
    List.take_zero]

lemma set_append_cons (pre : List Byte) (x y : Byte) (s : List Byte) :
    (pre ++ y :: s).set pre.length x = pre ++ x :: s := by
  induction pre with
  | nil => rfl
  | cons a t ih =>
    show a :: ((t ++ y :: s).set t.length x) = a :: (t ++ x :: s)
    rw [ih]

lemma memWrite_encode : ∀ (w pre s0 : List Byte), w.length ≤ s0.length →
    memWrite (pre ++ s0) (pre.length + 1) w = pre ++ w ++ s0.drop w.length := by
  intro w
  induction w with
  | nil => intro pre s0 _; simp [memWrite]
  | cons x w ih =>
    intro pre s0 h
    cases s0 with
    | nil => simp at h
    | cons y s0' =>
      show memWrite (setByte (pre ++ y :: s0') (pre.length + 1) x) (pre.length + 1 + 1) w = _
      rw [setByte, Nat.add_sub_cancel, set_append_cons]
      have h' : w.length ≤ s0'.length := by simpa using h
      have hrec := ih (pre ++ [x]) s0' h'
      simp only [List.append_assoc, List.singleton_append, List.length_append,
        List.length_singleton] at hrec
      simpa [List.length_cons] using hrec

lemma buf_dup_eq (mem : CMem) (v : List Byte) :
    buf_dup mem v =
      some (mem ++ v ++ [NUL], { ptr := mem.length + 1, dtor := some libc_free }) := by
  rw [buf_dup]
  have hw : memWrite (mem ++ List.replicate (v.length + 1) 0) (mem.length + 1) v
      = mem ++ v ++ (List.replicate (v.length + 1) (0 : Byte)).drop v.length :=
    memWrite_encode v mem _ (by simp)
  rw [List.drop_replicate, Nat.add_sub_cancel_left, List.replicate_one] at hw
  have hptr : (libc_malloc mem (v.length + 1)).2 = mem.length + 1 := rfl
  have hmem : (libc_malloc mem (v.length + 1)).1 = mem ++ List.replicate (v.length + 1) 0 := rfl
  simp only [hptr, hmem, hw]
  have hidx : mem.length + 1 + v.length - 1 = (mem ++ v).length := by
    rw [List.length_append]; omega
  have hset : setByte (mem ++ v ++ [(0 : Byte)]) (mem.length + 1 + v.length) NUL
      = mem ++ v ++ [NUL] := by
    rw [setByte, hidx, set_append_cons]
  rw [hset]
  rw [CStrBuf.new_libc, CStrBuf.new_with_dtor, if_neg (by omega)]
  rfl

lemma str_dup_eq (mem : CMem) (v : List Byte) :
    str_dup mem v =
      some (mem ++ v ++ [NUL],
        { buf := { ptr := mem.length + 1, dtor := some libc_free }, len := v.length }) := by
  rw [str_dup, buf_dup_eq]
  rfl

lemma take_length_takeWhile (l : List Byte) (p : Byte → Bool) :
    l.take (l.takeWhile p).length = l.takeWhile p := by
  induction l with
  | nil => rfl
  | cons a t ih =>
    by_cases h : p a
    · simp [List.takeWhile_cons_of_pos h, ih]
    · simp [List.takeWhile_cons_of_neg h]

/-! Claim theorems. -/

/-- C1: converting a byte sequence `v` with no zero byte via `to_c_str`
yields an Owned String whose terminator-excluded view (`as_bytes_no_nul`)
is exactly `v` and whose terminator-included view (`as_bytes`) is `v`
followed by a single zero byte. -/
theorem c1_round_trip (mem : CMem) (v : List Byte) (h : v.contains NUL = false) :
    ∃ s : CString,
      bytes_to_c_str mem v = some (mem ++ v ++ [NUL], s) ∧
      CString.as_bytes_no_nul (mem ++ v ++ [NUL]) s = v ∧
      CString.as_bytes (mem ++ v ++ [NUL]) s = v ++ [NUL] := by
  refine ⟨{ buf := { ptr := mem.length + 1, dtor := some libc_free }, len := v.length },
    ?_, ?_, ?_⟩
  · rw [bytes_to_c_str, if_neg (by simpa using h), bytes_to_c_str_unchecked, str_dup_eq]
  · have hr := memRead_encode mem v [NUL]
    simpa [CString.as_bytes_no_nul] using hr
  · have hr := memRead_encode_nul mem v []
    simpa [CString.as_bytes] using hr

/-- Witness for C1 at a concrete input. -/
theorem c1_witness :
    ∃ s : CString,
      bytes_to_c_str [] [104, 105] = some ([] ++ [104, 105] ++ [NUL], s) ∧
      CString.as_bytes_no_nul ([] ++ [104, 105] ++ [NUL]) s = [104, 105] ∧
      CString.as_bytes ([] ++ [104, 105] ++ [NUL]) s = [104, 105] ++ [NUL] :=
  c1_round_trip [] [104, 105] (by decide)

/-- C3: a CStrBuf holding a release closure invokes it exactly once at
drop, with the original address; a CStrBuf with no closure emits nothing;
`unwrap` cancels the obligation (the consumed value emits no event) and
returns the raw address; `into_c_str` emits nothing for the consumed
source and transfers the obligation to the resulting CString, whose drop
then emits exactly the source's single event. -/
theorem c3_release_once (mem : CMem) (ptr d : Nat) :
    CStrBuf.dropRun { ptr := ptr, dtor := some d } = [(d, ptr)] ∧
    CStrBuf.dropRun { ptr := ptr, dtor := none } = [] ∧
    (∀ b : CStrBuf, CStrBuf.unwrap b = (b.ptr, [])) ∧
    (∀ b : CStrBuf,
      (CStrBuf.into_c_str mem b).2.2 = [] ∧
      CString.dropRun (CStrBuf.into_c_str mem b).2.1 = CStrBuf.dropRun b) := by
  exact ⟨rfl, rfl, fun b => rfl, fun b => ⟨rfl, rfl⟩⟩

/-- C4: every adopt/wrap constructor rejects the null address; the
length-taking CString constructors additionally reject a declared length
whose following byte is not the terminator; with a non-null address (and,
for CString, a correct declared length) construction succeeds. -/
theorem c4_constructors (mem : CMem) (len d : Nat) :
    CStrBuf.new_unowned 0 = none ∧
    CStrBuf.new_libc 0 = none ∧
    CStrBuf.new_with_dtor 0 d = none ∧
    CString.new_unowned mem 0 len = none ∧
    CString.new_libc mem 0 len = none ∧
    CString.new_with_dtor mem 0 len d = none ∧
    BorrowedCString.wrap mem 0 = none ∧
    (∀ ptr, ptr ≠ 0 → getByte mem (ptr + len) ≠ NUL →
      CString.new_unowned mem ptr len = none ∧
      CString.new_libc mem ptr len = none ∧
      CString.new_with_dtor mem ptr len d = none) ∧
    (∀ ptr, ptr ≠ 0 →
      CStrBuf.new_unowned ptr = some { ptr := ptr, dtor := none } ∧
      CStrBuf.new_libc ptr = some { ptr := ptr, dtor := some libc_free } ∧
      CStrBuf.new_with_dtor ptr d = some { ptr := ptr, dtor := some d } ∧
      BorrowedCString.wrap mem ptr = some { ptr := ptr, len := strlen mem ptr }) ∧
    (∀ ptr, ptr ≠ 0 → getByte mem (ptr + len) = NUL →
      CString.new_unowned mem ptr len
        = some { buf := { ptr := ptr, dtor := none }, len := len } ∧
      CString.new_libc mem ptr len
        = some { buf := { ptr := ptr, dtor := some libc_free }, len := len } ∧
      CString.new_with_dtor mem ptr len d
        = some { buf := { ptr := ptr, dtor := some d }, len := len }) := by
  refine ⟨rfl, rfl, rfl, rfl, rfl, rfl, rfl, ?_, ?_, ?_⟩
  · intro ptr hp hterm
    refine ⟨?_, ?_, ?_⟩ <;>
      simp [CString.new_unowned, CString.new_libc, CString.new_with_dtor,
        CString.new_internal, CStrBuf.new_internal, hp, hterm]
  · intro ptr hp
    refine ⟨?_, ?_, ?_, ?_⟩ <;>
      simp [CStrBuf.new_unowned, CStrBuf.new_libc, CStrBuf.new_with_dtor,
        CStrBuf.new_internal, BorrowedCString.wrap, hp]
  · intro ptr hp hterm
    refine ⟨?_, ?_, ?_⟩ <;>
      simp [CString.new_unowned, CString.new_libc, CString.new_with_dtor,
        CString.new_internal, CStrBuf.new_internal, hp, hterm]

/-- Witness for C4 at concrete inputs: a wrong declared length is
rejected, a correct one accepted, and a non-null adopt succeeds. -/
theorem c4_witness :
    CString.new_unowned [7] 1 0 = none ∧
    CString.new_unowned [0] 1 0 = some { buf := { ptr := 1, dtor := none }, len := 0 } ∧
    CStrBuf.new_unowned 3 = some { ptr := 3, dtor := none } := by
  obtain ⟨-, -, -, -, -, -, -, h8, -, -⟩ := c4_constructors [7] 0 5
  obtain ⟨-, -, -, -, -, -, -, -, -, h10⟩ := c4_constructors [0] 0 5
  obtain ⟨-, -, -, -, -, -, -, -, h9, -⟩ := c4_constructors [] 0 5
  exact ⟨(h8 1 (by decide) (by decide)).1, (h10 1 (by decide) (by decide)).1,
    (h9 3 (by decide)).1⟩

/-- C5: promotion via `into_c_str` leaves the store and the address
unchanged, caches the terminator-scan length (`strlen`), transfers the
release obligation unchanged, leaves the consumed source with no pending
release (it emits no destructor event), and the promoted string's
terminator-excluded view is exactly the original null-terminated
content. -/
theorem c5_into_c_str (mem : CMem) (b : CStrBuf) :
    CStrBuf.into_c_str mem b =
      (mem, { buf := { ptr := b.ptr, dtor := b.dtor }, len := strlen mem b.ptr }, []) ∧
    CString.as_bytes_no_nul mem (CStrBuf.into_c_str mem b).2.1 = cstrContent mem b.ptr := by
  constructor
  · rfl
  · show memRead mem b.ptr (strlen mem b.ptr) = cstrContent mem b.ptr
    rw [memRead, strlen, cstrContent, take_length_takeWhile]

/-- C2 (amended): for byte slices and text the checked conversion panics
exactly when the source holds a zero byte and succeeds otherwise; the
three buffer types' `to_c_str` performs no embedded-terminator check (it
is the same function as `to_c_str_unchecked`) and always succeeds;
`to_c_str_unchecked` always succeeds. -/
theorem c2_to_c_str (mem : CMem) (v : List Byte) (b : CStrBuf) (s : CString)
    (r : BorrowedCString) :
    (v.contains NUL = true →
      bytes_to_c_str mem v = none ∧ str_to_c_str mem v = none ∧
      string_to_c_str mem v = none) ∧
    (v.contains NUL = false →
      (bytes_to_c_str mem v).isSome = true ∧
      str_to_c_str mem v = bytes_to_c_str mem v ∧
      string_to_c_str mem v = bytes_to_c_str mem v) ∧
    (bytes_to_c_str_unchecked mem v).isSome = true ∧
    CStrBuf.to_c_str mem b = CStrBuf.to_c_str_unchecked mem b ∧
    (CStrBuf.to_c_str mem b).isSome = true ∧
    CString.to_c_str mem s = CString.to_c_str_unchecked mem s ∧
    (CString.to_c_str mem s).isSome = true ∧
    BorrowedCString.to_c_str mem r = BorrowedCString.to_c_str_unchecked mem r ∧
    (BorrowedCString.to_c_str mem r).isSome = true := by
  refine ⟨fun hc => ?_, fun hc => ?_, ?_, rfl, ?_, rfl, ?_, rfl, ?_⟩
  · have hm : NUL ∈ v := by simpa using hc
    refine ⟨?_, ?_, ?_⟩ <;> simp [bytes_to_c_str, str_to_c_str, string_to_c_str, hm]
  · refine ⟨?_, rfl, rfl⟩
    rw [bytes_to_c_str, if_neg (by simpa using hc), bytes_to_c_str_unchecked, str_dup_eq]
    rfl
  · rw [bytes_to_c_str_unchecked, str_dup_eq]; rfl
  · rw [CStrBuf.to_c_str, CStrBuf.to_c_str_unchecked, str_dup_eq]; rfl
  · rw [CString.to_c_str, CString.to_c_str_unchecked, str_dup_eq]; rfl
  · rw [BorrowedCString.to_c_str, BorrowedCString.to_c_str_unchecked, str_dup_eq]; rfl

/-- Witness for C2 at concrete inputs. -/
theorem c2_witness :
    bytes_to_c_str [] [104, 0] = none ∧
    (bytes_to_c_str [] [104]).isSome = true := by
  obtain ⟨h1, -, -, -, -, -, -, -, -⟩ :=
    c2_to_c_str [] [104, 0] { ptr := 1, dtor := none } { buf := { ptr := 1, dtor := none }, len := 0 }
      { ptr := 1, len := 0 }
  obtain ⟨-, h2, -, -, -, -, -, -, -⟩ :=
    c2_to_c_str [] [104] { ptr := 1, dtor := none } { buf := { ptr := 1, dtor := none }, len := 0 }
      { ptr := 1, len := 0 }
  exact ⟨(h1 (by decide)).1, (h2 (by decide)).1⟩

/-- C2 counterexample: an Owned String whose terminator-excluded content
holds a zero byte before its logical end (built by the unchecked
conversion of `"he\x00llo"`), on which the checked `to_c_str` succeeds
instead of panicking. -/
theorem c2_counterexample :
    bytes_to_c_str_unchecked [] [104, 101, 0, 108, 108, 111]
      = some ([104, 101, 0, 108, 108, 111, 0],
          { buf := { ptr := 1, dtor := some libc_free }, len := 6 }) ∧
    (CString.as_bytes_no_nul [104, 101, 0, 108, 108, 111, 0]
        { buf := { ptr := 1, dtor := some libc_free }, len := 6 }).contains NUL = true ∧
    (CString.to_c_str [104, 101, 0, 108, 108, 111, 0]
        { buf := { ptr := 1, dtor := some libc_free }, len := 6 }).isSome = true := by
  decide

lemma contains_cons_false_tail {x : Byte} {v : List Byte}
    (hc : (x :: v).contains NUL = false) : v.contains NUL = false := by
  have hmem : NUL ∉ x :: v := by simpa using hc
  simpa using fun hm => hmem (List.mem_cons_of_mem _ hm)

lemma drainFuel_encode : ∀ (v : List Byte) (fuel : Nat) (pre suf : CMem),
    v.contains NUL = false → v.length + 1 ≤ fuel →
    CChars.drainFuel (pre ++ (v ++ NUL :: suf)) fuel { ptr := pre.length + 1 }
      = some (v, { ptr := pre.length + 1 + v.length }) := by
  intro v
  induction v with
  | nil =>
    intro fuel pre suf _ hf
    cases fuel with
    | zero => omega
    | succ f =>
      have hb : getByte (pre ++ NUL :: suf) (pre.length + 1) = NUL := by
        rw [getByte, tailFrom_append]; rfl
      simp [CChars.drainFuel, CChars.next, hb]
  | cons x v ih =>
    intro fuel pre suf hc hf
    cases fuel with
    | zero => omega
    | succ f =>
      have hx0 : ¬ x = NUL := by
        have hx : (x != NUL) = true := ne_nul_of_contains_eq_false hc x (by simp)
        simpa using hx
      have hb : getByte (pre ++ x :: (v ++ NUL :: suf)) (pre.length + 1) = x := by
        rw [getByte, tailFrom_append]; rfl
      have hnext : CChars.next (pre ++ x :: (v ++ NUL :: suf)) { ptr := pre.length + 1 }
          = (some x, { ptr := pre.length + 1 + 1 }) := by
        simp [CChars.next, hb, hx0]
      have hrec := ih f (pre ++ [x]) suf (contains_cons_false_tail hc) (by simpa using hf)
      rw [show pre ++ [x] ++ (v ++ NUL :: suf) = pre ++ x :: (v ++ NUL :: suf) by simp,
        show (pre ++ [x]).length + 1 = pre.length + 1 + 1 by simp] at hrec
      have hfin : pre.length + 1 + 1 + v.length = pre.length + 1 + (x :: v).length := by
        simp
        omega
      simp only [List.cons_append, CChars.drainFuel, hnext, hrec, hfin]

/-- C8: `next()` returns `none` and leaves the cursor unchanged when the
byte at the cursor is the terminator, and otherwise returns that byte and
advances the cursor by exactly one; consequently iterating a buffer whose
content is a zero-free `v` yields exactly the bytes of `v` in order, after
which `next()` answers `none` forever (the cursor no longer changes). -/
theorem c8_iterator (mem : CMem) (it : CChars) :
    (getByte mem it.ptr = NUL → CChars.next mem it = (none, it)) ∧
    (getByte mem it.ptr ≠ NUL →
      CChars.next mem it = (some (getByte mem it.ptr), { ptr := it.ptr + 1 })) ∧
    (∀ pre v suf, mem = pre ++ (v ++ NUL :: suf) → it.ptr = pre.length + 1 →
      v.contains NUL = false →
      CChars.drain mem it = some (v, { ptr := pre.length + 1 + v.length }) ∧
      CChars.next mem { ptr := pre.length + 1 + v.length }
        = (none, { ptr := pre.length + 1 + v.length })) := by
  refine ⟨fun h => by simp [CChars.next, h], fun h => by simp [CChars.next, h], ?_⟩
  intro pre v suf hm hp hc
  obtain ⟨p⟩ := it
  simp only at hp
  subst hp
  subst hm
  have hterm : getByte (pre ++ (v ++ NUL :: suf)) (pre.length + 1 + v.length) = NUL := by
    have h1 : pre ++ (v ++ NUL :: suf) = (pre ++ v) ++ (NUL :: suf) := by simp
    have h2 : pre.length + 1 + v.length = (pre ++ v).length + 1 := by simp; omega
    rw [h1, h2, getByte_append]
    rfl
  constructor
  · rw [CChars.drain]
    refine drainFuel_encode v _ pre suf hc ?_
    simp
    omega
  · simp [CChars.next, hterm]

/-- Witness for C8 at a concrete input. -/
theorem c8_witness :
    CChars.drain [104, 105, 0] { ptr := 1 } = some ([104, 105], { ptr := 3 }) ∧
    CChars.next [104, 105, 0] { ptr := 3 } = (none, { ptr := 3 }) := by
  obtain ⟨-, -, h⟩ := c8_iterator [104, 105, 0] { ptr := 1 }
  exact h [] [104, 105] [] rfl rfl (by decide)

lemma as_bytes_wf (mem : CMem) (s : CString) (h : CString.WF mem s) :
    CString.as_bytes mem s = CString.as_bytes_no_nul mem s ++ [NUL] := by
  obtain ⟨hp, hle, hterm⟩ := h
  have hlen : s.len < (tailFrom mem s.buf.ptr).length := by
    rw [tailFrom, if_neg hp, List.length_drop]
    omega
  have h1 : (tailFrom mem s.buf.ptr).drop s.len = tailFrom mem (s.buf.ptr + s.len) := by
    rw [tailFrom, tailFrom, if_neg hp, if_neg (by omega), List.drop_drop]
    congr 1
    omega
  have h12 : (tailFrom mem (s.buf.ptr + s.len)).head? = (tailFrom mem s.buf.ptr)[s.len]? := by
    rw [← h1]
    exact List.head?_drop _ _
  have h3 : (tailFrom mem (s.buf.ptr + s.len)).headD 0 = NUL := hterm
  rw [List.headD_eq_head?_getD, h12, List.getElem?_eq_getElem hlen] at h3
  have hgoal : (tailFrom mem s.buf.ptr)[s.len] = NUL := by simpa using h3
  rw [CString.as_bytes, CString.as_bytes_no_nul, memRead, memRead, List.take_succ,
    List.getElem?_eq_getElem hlen, hgoal]
  rfl

lemma sliceCmp_nil_lt {l : List Byte} (h : l ≠ []) : sliceCmp [] l = Ordering.lt := by
  cases l with
  | nil => exact absurd rfl h
  | cons a t => rfl

lemma sliceCmp_gt_nil {l : List Byte} (h : l ≠ []) : sliceCmp l [] = Ordering.gt := by
  cases l with
  | nil => exact absurd rfl h
  | cons a t => rfl

lemma sliceCmp_append_nul : ∀ a b : List Byte,
    sliceCmp (a ++ [NUL]) (b ++ [NUL]) = sliceCmp a b := by
  intro a
  induction a with
  | nil =>
    intro b
    cases b with
    | nil => rfl
    | cons y t =>
      show sliceCmp (NUL :: []) (y :: (t ++ [NUL])) = sliceCmp [] (y :: t)
      rw [show sliceCmp [] (y :: t) = Ordering.lt from rfl]
      simp only [sliceCmp]
      rcases Nat.eq_zero_or_pos y with hy | hy
      · subst hy
        rw [if_neg (by simp [NUL]), if_neg (by simp [NUL])]
        exact sliceCmp_nil_lt (by simp)
      · rw [if_pos (show NUL < y by simpa [NUL] using hy)]
  | cons x xs ih =>
    intro b
    cases b with
    | nil =>
      show sliceCmp (x :: (xs ++ [NUL])) (NUL :: []) = sliceCmp (x :: xs) []
      rw [show sliceCmp (x :: xs) [] = Ordering.gt from rfl]
      simp only [sliceCmp]
      rcases Nat.eq_zero_or_pos x with hx | hx
      · subst hx
        rw [if_neg (by simp [NUL]), if_neg (by simp [NUL])]
        exact sliceCmp_gt_nil (by simp)
      · rw [if_neg (by simp [NUL]), if_pos (show NUL < x by simpa [NUL] using hx)]
    | cons y t =>
      show sliceCmp (x :: (xs ++ [NUL])) (y :: (t ++ [NUL])) = sliceCmp (x :: xs) (y :: t)
      simp only [sliceCmp]
      by_cases h1 : x < y
      · rw [if_pos h1, if_pos h1]
      · rw [if_neg h1, if_neg h1]
        by_cases h2 : y < x
        · rw [if_pos h2, if_pos h2]
        · rw [if_neg h2, if_neg h2, ih t]

/-- C7: equality and ordering of two well-formed Owned Strings coincide
with byte equality and lexicographic byte ordering of their
terminator-excluded contents, embedded zero bytes included. -/
theorem c7_cstring_compare (mem : CMem) (s1 s2 : CString)
    (h1 : CString.WF mem s1) (h2 : CString.WF mem s2) :
    (CString.beq mem s1 s2 = true ↔
      CString.as_bytes_no_nul mem s1 = CString.as_bytes_no_nul mem s2) ∧
    CString.cmp mem s1 s2
      = sliceCmp (CString.as_bytes_no_nul mem s1) (CString.as_bytes_no_nul mem s2) ∧
    CString.partial_cmp mem s1 s2
      = some (sliceCmp (CString.as_bytes_no_nul mem s1)
          (CString.as_bytes_no_nul mem s2)) := by
  have e1 := as_bytes_wf mem s1 h1
  have e2 := as_bytes_wf mem s2 h2
  refine ⟨?_, ?_, ?_⟩
  · rw [CString.beq, e1, e2]
    simp [List.append_left_inj]
  · rw [CString.cmp, e1, e2, sliceCmp_append_nul]
  · rw [CString.partial_cmp, CString.cmp, e1, e2, sliceCmp_append_nul]

/-- Witness for C7: two strings with embedded zero bytes, one equality and
one strict ordering. -/
theorem c7_witness :
    CString.beq [104, 0, 98, 0, 104, 0, 98, 0]
      { buf := { ptr := 1, dtor := none }, len := 3 }
      { buf := { ptr := 5, dtor := none }, len := 3 } = true ∧
    CString.cmp [104, 0, 98, 0, 104, 0, 99, 0]
      { buf := { ptr := 1, dtor := none }, len := 3 }
      { buf := { ptr := 5, dtor := none }, len := 3 } = Ordering.lt := by
  obtain ⟨hbeq, -, -⟩ := c7_cstring_compare [104, 0, 98, 0, 104, 0, 98, 0]
    { buf := { ptr := 1, dtor := none }, len := 3 }
    { buf := { ptr := 5, dtor := none }, len := 3 } (by decide) (by decide)
  obtain ⟨-, hcmp, -⟩ := c7_cstring_compare [104, 0, 98, 0, 104, 0, 99, 0]
    { buf := { ptr := 1, dtor := none }, len := 3 }
    { buf := { ptr := 5, dtor := none }, len := 3 } (by decide) (by decide)
  refine ⟨hbeq.mpr (by decide), ?_⟩
  rw [hcmp]
  decide

lemma takeWhile_nul_cons_pos {y : Byte} (t : List Byte) (h : ¬ y = NUL) :
    (y :: t).takeWhile (fun b => b != NUL) = y :: t.takeWhile (fun b => b != NUL) := by
  simp [List.takeWhile_cons, h]

lemma takeWhile_nul_cons_nul (t : List Byte) :
    (NUL :: t).takeWhile (fun b => b != NUL) = [] := by
  simp [List.takeWhile_cons]

lemma strcmpList_eq_zero_iff : ∀ xs ys : List Byte,
    strcmpList xs ys = 0 ↔
      xs.takeWhile (fun b => b != NUL) = ys.takeWhile (fun b => b != NUL) := by
  intro xs
  induction xs with
  | nil =>
    intro ys
    cases ys with
    | nil => simp [strcmpList]
    | cons y t =>
      rcases Nat.eq_zero_or_pos y with hy | hy
      · subst hy
        rw [show (0 : Byte) = NUL from rfl, takeWhile_nul_cons_nul]
        simp [strcmpList, NUL]
      · have hy0 : ¬ y = NUL := Nat.pos_iff_ne_zero.mp hy
        rw [takeWhile_nul_cons_pos t hy0]
        simp only [strcmpList, List.headD_cons, List.takeWhile_nil]
        constructor
        · intro h
          rw [sub_eq_zero] at h
          have hy0' : y = 0 := by exact_mod_cast h.symm
          exact absurd hy0' hy0
        · intro h
          exact absurd h.symm (List.cons_ne_nil _ _)
  | cons x xs ih =>
    intro ys
    by_cases hxy : x = ys.headD 0
    · by_cases hx : x = NUL
      · subst hx
        cases ys with
        | nil =>
          rw [takeWhile_nul_cons_nul, List.takeWhile_nil]
          simp [strcmpList, NUL]
        | cons y t =>
          have hy : y = NUL := hxy.symm
          subst hy
          rw [takeWhile_nul_cons_nul, takeWhile_nul_cons_nul]
          simp [strcmpList, NUL]
      · cases ys with
        | nil => exact absurd hxy hx
        | cons y t =>
          have hyx : y = x := hxy.symm
          subst hyx
          rw [show strcmpList (y :: xs) (y :: t)
              = if y = NUL then 0 else strcmpList xs t by
            simp only [strcmpList, List.headD_cons, List.tail_cons, eq_self_iff_true, if_true]]
          rw [if_neg hx]
          rw [takeWhile_nul_cons_pos xs hx, takeWhile_nul_cons_pos t hx, ih t]
          simp
    · have hne : strcmpList (x :: xs) ys ≠ 0 := by
        have hunfold : strcmpList (x :: xs) ys = (x : Int) - (ys.headD 0 : Byte) := by
          simp only [strcmpList, if_neg hxy]
        rw [hunfold]
        intro h
        have hcast : (x : Int) = ((ys.headD 0 : Byte) : Int) := sub_eq_zero.mp h
        exact hxy (by exact_mod_cast hcast)
      constructor
      · intro h
        exact absurd h hne
      · intro h
        exfalso
        by_cases hx : x = NUL
        · subst hx
          cases ys with
          | nil => exact hxy rfl
          | cons y t =>
            have hy0 : ¬ y = NUL := fun he => hxy (by simp [he])
            rw [takeWhile_nul_cons_nul, takeWhile_nul_cons_pos t hy0] at h
            exact List.cons_ne_nil _ _ h.symm
        · cases ys with
          | nil =>
            rw [takeWhile_nul_cons_pos xs hx, List.takeWhile_nil] at h
            exact List.cons_ne_nil _ _ h
          | cons y t =>
            by_cases hy : y = NUL
            · subst hy
              rw [takeWhile_nul_cons_pos xs hx, takeWhile_nul_cons_nul] at h
              exact List.cons_ne_nil _ _ h
            · rw [takeWhile_nul_cons_pos xs hx, takeWhile_nul_cons_pos t hy] at h
              injection h with hh htail
              exact hxy hh

/-- C10: equality and ordering of two CStrBuf values (via `strcmp`) look
only at the bytes up to the first terminator: they coincide with equality
of the null-terminated contents, so buffers agreeing before their first
zero byte compare equal whatever follows it. -/
theorem c10_cstrbuf_compare (mem : CMem) (b1 b2 : CStrBuf) :
    (CStrBuf.beq mem b1 b2 = true ↔ cstrContent mem b1.ptr = cstrContent mem b2.ptr) ∧
    (cstrContent mem b1.ptr = cstrContent mem b2.ptr →
      CStrBuf.cmp mem b1 b2 = Ordering.eq ∧
      CStrBuf.partial_cmp mem b1 b2 = some Ordering.eq) := by
  have hiff : strcmp mem b1.ptr b2.ptr = 0 ↔
      cstrContent mem b1.ptr = cstrContent mem b2.ptr :=
    strcmpList_eq_zero_iff (tailFrom mem b1.ptr) (tailFrom mem b2.ptr)
  constructor
  · rw [CStrBuf.beq]
    constructor
    · intro h
      exact hiff.mp (by simpa using h)
    · intro h
      simpa using hiff.mpr h
  · intro h
    have hz : strcmp mem b1.ptr b2.ptr = 0 := hiff.mpr h
    constructor
    · rw [CStrBuf.cmp, hz]
      decide
    · rw [CStrBuf.partial_cmp, CStrBuf.cmp, hz]
      decide

/-- Witness for C10: the unchecked conversions of `"he\x00llo"` and
`"he\x00xyz"` live side by side in one store and compare equal although
their bytes after the first zero differ. -/
theorem c10_witness :
    CStrBuf.beq [104, 101, 0, 108, 108, 111, 0, 104, 101, 0, 120, 121, 122, 0]
      { ptr := 1, dtor := some libc_free } { ptr := 8, dtor := some libc_free } = true ∧
    CStrBuf.cmp [104, 101, 0, 108, 108, 111, 0, 104, 101, 0, 120, 121, 122, 0]
      { ptr := 1, dtor := some libc_free } { ptr := 8, dtor := some libc_free }
      = Ordering.eq := by
  obtain ⟨hbeq, hcmp⟩ :=
    c10_cstrbuf_compare [104, 101, 0, 108, 108, 111, 0, 104, 101, 0, 120, 121, 122, 0]
      { ptr := 1, dtor := some libc_free } { ptr := 8, dtor := some libc_free }
  exact ⟨hbeq.mpr (by decide), (hcmp (by decide)).1⟩

lemma stackCopy_spec (scratch v : List Byte) (hscr : scratch.length = BUF_LEN)
    (hlt : v.length < BUF_LEN) :
    (stackCopy scratch v).take (v.length + 1) = v ++ [NUL] := by
  have hd : (scratch.drop v.length).length = BUF_LEN - v.length := by
    rw [List.length_drop, hscr]
  have hne : scratch.drop v.length ≠ [] := by
    intro he
    rw [he] at hd
    simp at hd
    omega
  obtain ⟨y, d', hcons⟩ := List.exists_cons_of_ne_nil hne
  have htake : (v ++ scratch.drop v.length).take BUF_LEN = v ++ scratch.drop v.length := by
    apply List.take_of_length_le
    rw [List.length_append, hd]
    omega
  rw [stackCopy, htake, hcons, set_append_cons, List.take_append, List.take_succ_cons,
    List.take_zero]

/-- C9 (amended): for a zero-free source `v`, `with_c_str_len` exposes to
the visitor a region whose first `v.length + 1` bytes are `v` followed by
one zero byte, together with the length `v.length`, identically on both
code paths; the stack path is taken exactly when `v.length` is strictly
below the 128-byte threshold `BUF_LEN` (so a source of exactly 128 bytes
takes the heap-conversion path). -/
theorem c9_with_c_str_len (mem scratch : CMem) (v : List Byte)
    (hscr : scratch.length = BUF_LEN) (h : v.contains NUL = false) :
    ∃ pr : CPath × List Byte × Nat,
      with_c_str_len mem scratch v true = some pr ∧
      pr.2.2 = v.length ∧
      pr.2.1.take (v.length + 1) = v ++ [NUL] ∧
      (pr.1 = CPath.stack ↔ v.length < BUF_LEN) := by
  by_cases hlt : v.length < BUF_LEN
  · refine ⟨(CPath.stack, stackCopy scratch v, v.length), ?_, rfl, ?_, by simp [hlt]⟩
    · rw [with_c_str_len, if_pos hlt, if_neg (by simpa using h)]
    · exact stackCopy_spec scratch v hscr hlt
  · refine ⟨(CPath.heap, CString.as_bytes (mem ++ v ++ [NUL])
        { buf := { ptr := mem.length + 1, dtor := some libc_free }, len := v.length },
        v.length), ?_, rfl, ?_, by simp [hlt]⟩
    · have hconv : bytes_to_c_str mem v = some (mem ++ v ++ [NUL],
          { buf := { ptr := mem.length + 1, dtor := some libc_free }, len := v.length }) := by
        rw [bytes_to_c_str, if_neg (by simpa using h), bytes_to_c_str_unchecked, str_dup_eq]
      rw [with_c_str_len, if_neg hlt, if_pos rfl, hconv]
    · have hb : CString.as_bytes (mem ++ v ++ [NUL])
          { buf := { ptr := mem.length + 1, dtor := some libc_free }, len := v.length }
          = v ++ [NUL] := by
        have hr := memRead_encode_nul mem v []
        simpa [CString.as_bytes] using hr
      rw [hb]
      apply List.take_of_length_le
      simp

/-- Witness for C9 at a concrete short input (stack path). -/
theorem c9_witness :
    ∃ pr : CPath × List Byte × Nat,
      with_c_str_len [] (List.replicate BUF_LEN 0) [104, 105] true = some pr ∧
      pr.2.2 = [104, 105].length ∧
      pr.2.1.take ([104, 105].length + 1) = [104, 105] ++ [NUL] ∧
      (pr.1 = CPath.stack ↔ [104, 105].length < BUF_LEN) :=
  c9_with_c_str_len [] (List.replicate BUF_LEN 0) [104, 105] (by simp) (by decide)

set_option maxRecDepth 4000 in
/-- C9 counterexample: a source of exactly 128 bytes, which is "no longer
than 128 bytes", takes the heap-conversion path, not the stack path. -/
theorem c9_counterexample :
    (with_c_str_len [] (List.replicate BUF_LEN 0) (List.replicate BUF_LEN 1) true).map
      (fun r => r.1) = some CPath.heap := by
  decide

lemma from_c_multistring_go_stop (mem : CMem) (f curr ctr : Nat) (limited : Bool)
    (limit : Nat)
    (hng : ¬ ((limited = false ∨ ctr < limit) ∧ getByte mem curr ≠ NUL)) :
    from_c_multistring_go mem (f + 1) curr ctr limited limit = some ([], ctr) := by
  simp only [from_c_multistring_go]
  rw [if_neg hng]

lemma from_c_multistring_go_step (mem : CMem) (f curr ctr : Nat) (limited : Bool)
    (limit : Nat) (hg : limited = false ∨ ctr < limit) (hb : getByte mem curr ≠ NUL)
    (hc : ¬ curr = 0) :
    from_c_multistring_go mem (f + 1) curr ctr limited limit
      = (match from_c_multistring_go mem f (curr + strlen mem curr + 1) (ctr + 1)
            limited limit with
         | none => none
         | some r =>
            some (({ ptr := curr, len := strlen mem curr } : BorrowedCString) :: r.1,
              r.2)) := by
  simp only [from_c_multistring_go]
  rw [if_pos ⟨hg, hb⟩, CStrBuf.new_unowned, if_neg hc]
  rfl

lemma from_c_multistring_go_encode :
    ∀ (ss : List (List Byte)) (pre suf : CMem) (ctr : Nat) (limited : Bool) (limit : Nat)
      (fuel : Nat),
      (∀ s ∈ ss, s.contains NUL = false ∧ s ≠ []) →
      ss.length + 1 ≤ fuel →
      ∃ vs : List BorrowedCString,
        from_c_multistring_go (pre ++ (multiEncode ss ++ suf)) fuel (pre.length + 1) ctr
            limited limit
          = some (vs,
              ctr + (if limited = true then min (limit - ctr) ss.length else ss.length)) ∧
        vs.map (fun r => BorrowedCString.as_bytes_no_nul (pre ++ (multiEncode ss ++ suf)) r)
          = ss.take (if limited = true then limit - ctr else ss.length) := by
  intro ss
  induction ss with
  | nil =>
    intro pre suf ctr limited limit fuel hss hf
    cases fuel with
    | zero => omega
    | succ f =>
      have heq : multiEncode [] ++ suf = NUL :: suf := rfl
      rw [heq]
      have hterm : getByte (pre ++ NUL :: suf) (pre.length + 1) = NUL := by
        rw [getByte_append]
        rfl
      refine ⟨[], ?_, by simp⟩
      rw [from_c_multistring_go_stop _ _ _ _ _ _ (by simp [hterm])]
      simp
  | cons s ss ih =>
    intro pre suf ctr limited limit fuel hss hf
    obtain ⟨hcf, hnil⟩ := hss s (List.mem_cons_self s ss)
    cases fuel with
    | zero => omega
    | succ f =>
      have hmem : pre ++ (multiEncode (s :: ss) ++ suf)
          = pre ++ s ++ NUL :: (multiEncode ss ++ suf) := by
        simp [multiEncode]
      rw [hmem]
      by_cases hg : limited = false ∨ ctr < limit
      · have hhead : getByte (pre ++ s ++ NUL :: (multiEncode ss ++ suf))
            (pre.length + 1) ≠ NUL := by
          obtain ⟨a, s', rfl⟩ := List.exists_cons_of_ne_nil hnil
          have ha : ¬ a = NUL := by
            simpa using ne_nul_of_contains_eq_false hcf a (List.mem_cons_self a s')
          have hshape : pre ++ (a :: s') ++ NUL :: (multiEncode ss ++ suf)
              = pre ++ (a :: (s' ++ NUL :: (multiEncode ss ++ suf))) := by
            simp
          rw [hshape, getByte_append]
          exact ha
        have hstrlen : strlen (pre ++ s ++ NUL :: (multiEncode ss ++ suf))
            (pre.length + 1) = s.length :=
          strlen_encode pre s (multiEncode ss ++ suf) hcf
        rw [from_c_multistring_go_step _ _ _ _ _ _ hg hhead (by omega), hstrlen]
        have hview : BorrowedCString.as_bytes_no_nul
            (pre ++ s ++ NUL :: (multiEncode ss ++ suf))
            { ptr := pre.length + 1, len := s.length } = s := by
          show memRead (pre ++ s ++ NUL :: (multiEncode ss ++ suf))
            (pre.length + 1) s.length = s
          exact memRead_encode pre s (NUL :: (multiEncode ss ++ suf))
        have hss' : ∀ t ∈ ss, t.contains NUL = false ∧ t ≠ [] := fun t ht =>
          hss t (List.mem_cons_of_mem _ ht)
        obtain ⟨vs, hgo, hmap⟩ := ih (pre ++ s ++ [NUL]) suf (ctr + 1) limited limit f
          hss' (by simpa using hf)
        have hmem2 : (pre ++ s ++ [NUL]) ++ (multiEncode ss ++ suf)
            = pre ++ s ++ NUL :: (multiEncode ss ++ suf) := by
          simp
        have hlen2 : (pre ++ s ++ [NUL]).length + 1 = pre.length + 1 + s.length + 1 := by
          simp
          omega
        rw [hmem2, hlen2] at hgo
        rw [hmem2] at hmap
        rw [hgo]
        refine ⟨{ ptr := pre.length + 1, len := s.length } :: vs, ?_, ?_⟩
        · show some ({ ptr := pre.length + 1, len := s.length } :: vs,
              ctr + 1 + (if limited = true then min (limit - (ctr + 1)) ss.length
                else ss.length)) = _
          have hcount : ctr + 1
                + (if limited = true then min (limit - (ctr + 1)) ss.length else ss.length)
              = ctr + (if limited = true then min (limit - ctr) (s :: ss).length
                else (s :: ss).length) := by
            by_cases hl : limited = true
            · rw [if_pos hl, if_pos hl]
              have hctrlt : ctr < limit := by
                rcases hg with hgf | hgl
                · rw [hl] at hgf
                  cases hgf
                · exact hgl
              rw [List.length_cons]
              rcases Nat.le_total (limit - (ctr + 1)) ss.length with hm | hm
              · rw [Nat.min_eq_left hm, Nat.min_eq_left (by omega)]
                omega
              · rw [Nat.min_eq_right hm, Nat.min_eq_right (by omega)]
                omega
            · rw [if_neg hl, if_neg hl, List.length_cons]
              omega
          rw [hcount]
        · rw [List.map_cons, hview, hmap]
          by_cases hl : limited = true
          · rw [if_pos hl, if_pos hl]
            have hctrlt : ctr < limit := by
              rcases hg with hgf | hgl
              · rw [hl] at hgf
                cases hgf
              · exact hgl
            rw [show limit - ctr = (limit - (ctr + 1)) + 1 from by omega,
              List.take_succ_cons]
          · rw [if_neg hl, if_neg hl, List.length_cons, List.take_succ_cons,
              List.take_length]
      · have hl : limited = true := by
          cases limited with
          | false => exact absurd (Or.inl rfl) hg
          | true => rfl
        have hle : limit ≤ ctr := by
          by_contra hn
          exact hg (Or.inr (by omega))
        have hz : limit - ctr = 0 := by omega
        refine ⟨[], ?_, ?_⟩
        · rw [from_c_multistring_go_stop _ _ _ _ _ _ (fun hcon => hg hcon.1),
            if_pos hl, hz]
          simp
        · rw [if_pos hl, hz]
          simp

lemma multiEncode_length_le : ∀ ss : List (List Byte),
    ss.length + 1 ≤ (multiEncode ss).length := by
  intro ss
  induction ss with
  | nil => simp [multiEncode]
  | cons s t ih =>
    simp [multiEncode] at ih ⊢
    omega

lemma take_min_length (l : List (List Byte)) (k : Nat) :
    l.take (min k l.length) = l.take k := by
  rcases Nat.le_total k l.length with h | h
  · rw [Nat.min_eq_left h]
  · rw [Nat.min_eq_right h, List.take_length, List.take_of_length_le h]

/-- C6: applied to a buffer of consecutive null-terminated (non-empty,
zero-free) segments closed by an empty segment, `from_c_multistring`
invokes the callback once per segment in order with views of exactly the
segment bytes, stops at the count limit if one is given and otherwise at
the first empty segment, and returns the number of segments visited. -/
theorem c6_multistring (pre suf : CMem) (ss : List (List Byte)) (count : Option Nat)
    (hss : ∀ s ∈ ss, s.contains NUL = false ∧ s ≠ []) :
    ∃ vs : List BorrowedCString,
      from_c_multistring (pre ++ (multiEncode ss ++ suf)) (pre.length + 1) count
        = some (vs, visitLimit count ss.length) ∧
      vs.map (fun r => BorrowedCString.as_bytes_no_nul (pre ++ (multiEncode ss ++ suf)) r)
        = ss.take (visitLimit count ss.length) := by
  have hfuel : ss.length + 1 ≤ (pre ++ (multiEncode ss ++ suf)).length + 1 := by
    have h1 : ss.length + 1 ≤ (multiEncode ss).length := multiEncode_length_le ss
    simp only [List.length_append]
    omega
  cases count with
  | none =>
    obtain ⟨vs, hgo, hmap⟩ := from_c_multistring_go_encode ss pre suf 0 false 0 _ hss hfuel
    refine ⟨vs, ?_, ?_⟩
    · show from_c_multistring_go (pre ++ (multiEncode ss ++ suf))
        ((pre ++ (multiEncode ss ++ suf)).length + 1) (pre.length + 1) 0 false 0 = _
      rw [hgo]
      simp [visitLimit]
    · rw [hmap]
      simp [visitLimit]
  | some k =>
    obtain ⟨vs, hgo, hmap⟩ := from_c_multistring_go_encode ss pre suf 0 true k _ hss hfuel
    refine ⟨vs, ?_, ?_⟩
    · show from_c_multistring_go (pre ++ (multiEncode ss ++ suf))
        ((pre ++ (multiEncode ss ++ suf)).length + 1) (pre.length + 1) 0 true k = _
      rw [hgo]
      simp [visitLimit]
    · rw [hmap]
      show List.take (if true = true then k - 0 else ss.length) ss
          = List.take (min k ss.length) ss
      rw [if_pos rfl, Nat.sub_zero]
      exact (take_min_length ss k).symm

/-- Witness for C6: the multistring `"zero\x00one\x00\x00"` with no count
limit visits exactly the two segments `"zero"` and `"one"`, in order, and
returns 2. -/
theorem c6_witness :
    ∃ vs : List BorrowedCString,
      from_c_multistring [122, 101, 114, 111, 0, 111, 110, 101, 0, 0] 1 none
        = some (vs, 2) ∧
      vs.map (fun r =>
          BorrowedCString.as_bytes_no_nul [122, 101, 114, 111, 0, 111, 110, 101, 0, 0] r)
        = [[122, 101, 114, 111], [111, 110, 101]] := by
  have h := c6_multistring [] [] [[122, 101, 114, 111], [111, 110, 101]] none (by decide)
  exact h
